import Mathlib

/-!
Verification of the `merkle_root` crate: a shallow embedding of its two
Merkle-root strategies (`DepthWalk` in `src/calc/depth_walk.rs`,
`WidthWalk` in `src/calc/width_walk.rs`), of the pairwise combinator
`hash` in `src/calc/mod.rs`, and of the `SourceReader` iterator in
`src/source.rs`, together with theorems settling the specification's
claims about them.

Modelling conventions:
* The Rust strategies are generic over the digest type `H` and the
  combinator `F: Fn(H, Option<H>) -> H`; the embedding keeps that
  genericity (`H : Type`, `f : H → Option H → H`).
* The mutable peekable iterator `source` is embedded as an explicit
  `List H` threaded through the functions; `peek` returning `Some`
  corresponds to the remaining list being non-empty.
* A Rust `panic!` / `expect` failure is embedded as the `none` value of
  an `Option` result: a function returns `some d` exactly when the Rust
  code returns digest `d` normally, and `none` exactly when the Rust
  code aborts.
* `rayon`'s `par_chunks(2).map(...).collect()` is deterministic and
  order-preserving, so it is embedded as the sequential order-preserving
  map over consecutive chunks of two.
-/

namespace MerkleRoot

/-- Embedding of `walk_down` from `src/calc/depth_walk.rs`: at height 0 it
takes the next leaf from the source (if any); at height `h+1` it computes
the left sub-result at height `h` (propagating `None` if the source is
exhausted, as the Rust `?` operator does) and then the right sub-result at
height `h`, combining the two with `f`. The returned list is the source
left over after the call. -/
def walk_down {H : Type} (f : H → Option H → H) : Nat → List H → Option H × List H
  | 0, [] => (none, [])
  | 0, x :: xs => (some x, xs)
  | h + 1, s =>
    match walk_down f h s with
    | (none, s1) => (none, s1)
    | (some l, s1) =>
      match walk_down f h s1 with
      | (r, s2) => (some (f l r), s2)

theorem walk_down_succ {H : Type} (f : H → Option H → H) (h : Nat) (s : List H) :
    walk_down f (h + 1) s
      = match walk_down f h s with
        | (none, s1) => (none, s1)
        | (some l, s1) =>
          match walk_down f h s1 with
          | (r, s2) => (some (f l r), s2) := by
  rw [walk_down]

theorem walk_down_nil {H : Type} (f : H → Option H → H) :
    ∀ h : Nat, walk_down f h [] = (none, []) := by
  intro h
  induction h with
  | zero => rfl
  | succ h ih => simp [walk_down, ih]

theorem walk_down_fst_eq_none {H : Type} (f : H → Option H → H) :
    ∀ (h : Nat) (s : List H), (walk_down f h s).1 = none ↔ s = [] := by
  intro h
  induction h with
  | zero =>
    intro s
    cases s <;> simp [walk_down]
  | succ h ih =>
    intro s
    cases s with
    | nil => simp [walk_down_nil]
    | cons x xs =>
      rcases hw : walk_down f h (x :: xs) with ⟨r1, s1⟩
      cases r1 with
      | none =>
        have : (walk_down f h (x :: xs)).1 = none := by rw [hw]
        simp [ih] at this
      | some l =>
        rcases hw2 : walk_down f h s1 with ⟨r2, s2⟩
        simp [walk_down, hw, hw2]

theorem walk_down_snd {H : Type} (f : H → Option H → H) :
    ∀ (h : Nat) (s : List H), (walk_down f h s).2 = s.drop (2 ^ h) := by
  intro h
  induction h with
  | zero =>
    intro s
    cases s <;> simp [walk_down]
  | succ h ih =>
    intro s
    cases s with
    | nil => simp [walk_down_nil]
    | cons x xs =>
      rcases hw : walk_down f h (x :: xs) with ⟨r1, s1⟩
      cases r1 with
      | none =>
        have : (walk_down f h (x :: xs)).1 = none := by rw [hw]
        simp [walk_down_fst_eq_none] at this
      | some l =>
        rcases hw2 : walk_down f h s1 with ⟨r2, s2⟩
        have h1 : s1 = (x :: xs).drop (2 ^ h) := by
          have := ih (x :: xs); rw [hw] at this; exact this
        have h2 : s2 = s1.drop (2 ^ h) := by
          have := ih s1; rw [hw2] at this; exact this
        simp only [walk_down, hw, hw2]
        rw [h2, h1, List.drop_drop, pow_succ, mul_two]

/-- Embedding of `walk_up` from `src/calc/depth_walk.rs`: it computes the
right branch by `walk_down` at `height - 1`, combines it with the carried
`left` via `f`, and then (the Rust code peeks the source) either recurses
one level higher if leaves remain or returns the combined hash as the
root. -/
def walk_up {H : Type} (f : H → Option H → H) (height : Nat) (left : H) (s : List H) : H :=
  match h1 : (walk_down f (height - 1) s).2 with
  | [] => f left (walk_down f (height - 1) s).1
  | y :: t => walk_up f (height + 1) (f left (walk_down f (height - 1) s).1) (y :: t)
  termination_by s.length
  decreasing_by
    have h2 := walk_down_snd f (height - 1) s
    rw [h1] at h2
    have h3 : (y :: t).length = s.length - 2 ^ (height - 1) := by
      rw [h2, List.length_drop]
    have h4 : 1 ≤ 2 ^ (height - 1) := Nat.one_le_two_pow
    simp only [List.length_cons] at h3 ⊢
    omega

theorem walk_up_last {H : Type} (f : H → Option H → H) (height : Nat) (left : H)
    (s : List H) (h0 : (walk_down f (height - 1) s).2 = []) :
    walk_up f height left s = f left (walk_down f (height - 1) s).1 := by
  rw [walk_up]
  split
  · rfl
  · rename_i y t h1
    rw [h0] at h1
    simp at h1

theorem walk_up_step {H : Type} (f : H → Option H → H) (height : Nat) (left : H)
    (s : List H) (y : H) (t : List H) (h0 : (walk_down f (height - 1) s).2 = y :: t) :
    walk_up f height left s
      = walk_up f (height + 1) (f left (walk_down f (height - 1) s).1) (y :: t) := by
  rw [walk_up]
  split
  · rename_i h1
    rw [h0] at h1
    simp at h1
  · rename_i y' t' h1
    rw [h0] at h1
    cases h1
    rfl

/-- Embedding of `DepthWalk::calculate` from `src/calc/depth_walk.rs`:
take the first leaf (panicking — `none` — if the source is empty) and
start `walk_up` at height 1. -/
def DepthWalk.calculate {H : Type} (f : H → Option H → H) (s : List H) : Option H :=
  match s with
  | [] => none
  | x :: xs => some (walk_up f 1 x xs)

/-- Embedding of the body of `walk_layers` from `src/calc/width_walk.rs`
that builds the next layer: `layer.par_chunks(2).map(...).collect()`,
where a chunk of two is combined as `f c0 (some c1)` and a trailing chunk
of one as `f c0 none`. -/
def chunksMap2 {H : Type} (f : H → Option H → H) : List H → List H
  | [] => []
  | [x] => [f x none]
  | x :: y :: rest => f x (some y) :: chunksMap2 f rest

theorem chunksMap2_length {H : Type} (f : H → Option H → H) :
    ∀ s : List H, (chunksMap2 f s).length = (s.length + 1) / 2
  | [] => by simp [chunksMap2]
  | [x] => by simp [chunksMap2]
  | x :: y :: rest => by
    simp only [chunksMap2, List.length_cons, chunksMap2_length f rest]
    omega

/-- Embedding of `walk_layers` from `src/calc/width_walk.rs`: a layer of
exactly one element is the root (`layer.pop().unwrap()`); a layer of two
or more elements is reduced to the next layer by `chunksMap2` and the
walk recurses. The Rust function never receives an empty layer (its only
callers pass non-empty layers); on `[]` the Rust code would recurse
forever, and the embedding returns `none` for that unreachable case. -/
def walk_layers {H : Type} (f : H → Option H → H) : List H → Option H
  | [] => none
  | [x] => some x
  | x :: y :: rest => walk_layers f (chunksMap2 f (x :: y :: rest))
  termination_by l => l.length
  decreasing_by
    simp only [chunksMap2_length, List.length_cons]
    omega

/-- Embedding of `WidthWalk::calculate` from `src/calc/width_walk.rs`:
drain the source into layer 0, panic (`none`) if it is empty, and reduce
it with `walk_layers`. -/
def WidthWalk.calculate {H : Type} (f : H → Option H → H) (s : List H) : Option H :=
  if s.length = 0 then none else walk_layers f s

/-- The mock combinator of the strategy test modules (`fn hash` in the
`tests` modules of `src/calc/depth_walk.rs` and `src/calc/width_walk.rs`,
and the mock of the spec's §8): the result extends the left operand by
the right operand, or by the left operand again when the right one is
absent: `combine(l, r) = l ++ (r if present else l)`. -/
def concatHash {A : Type} (left : List A) (right : Option (List A)) : List A :=
  match right with
  | none => left ++ left
  | some r => left ++ r

/-- Instrumentation combinator counting combinator invocations with an
absent right operand: every leaf carries 0, a combination with a present
right operand adds the two sub-counts, and a combination with an absent
right operand contributes 1. Since in both strategies the result of every
combinator call feeds into the root exactly once, the root value is the
total number of absent-right invocations performed. -/
def countHash (left : Nat) (right : Option Nat) : Nat :=
  match right with
  | none => left + 1
  | some r => left + r

/-- Concatenation of all leaves in source order (the spec's "root equals
the concatenation of all leaves" reading of a duplication-free tree). -/
def joinAll {A : Type} : List (List A) → List A
  | [] => []
  | x :: xs => x ++ joinAll xs

/-- Iterating `chunksMap2` `k` times: the layer the width walk has built
after `k` reduction rounds. -/
def chunksIter {H : Type} (f : H → Option H → H) : Nat → List H → List H
  | 0, s => s
  | k + 1, s => chunksIter f k (chunksMap2 f s)

theorem chunksMap2_eq_nil {H : Type} (f : H → Option H → H) :
    ∀ s : List H, chunksMap2 f s = [] ↔ s = []
  | [] => by simp [chunksMap2]
  | [x] => by simp [chunksMap2]
  | x :: y :: rest => by simp [chunksMap2]

theorem chunksIter_eq_nil {H : Type} (f : H → Option H → H) :
    ∀ (k : Nat) (s : List H), chunksIter f k s = [] ↔ s = [] := by
  intro k
  induction k with
  | zero => intro s; simp [chunksIter]
  | succ k ih => intro s; simp [chunksIter, ih, chunksMap2_eq_nil]

theorem chunksIter_succ_out {H : Type} (f : H → Option H → H) :
    ∀ (k : Nat) (s : List H), chunksIter f (k + 1) s = chunksMap2 f (chunksIter f k s) := by
  intro k
  induction k with
  | zero => intro s; simp [chunksIter]
  | succ k ih => intro s; simp only [chunksIter]; rw [← ih]; simp [chunksIter]

theorem chunksMap2_drop {H : Type} (f : H → Option H → H) :
    ∀ (m : Nat) (s : List H), chunksMap2 f (s.drop (2 * m)) = (chunksMap2 f s).drop m := by
  intro m
  induction m with
  | zero => intro s; simp
  | succ m ih =>
    intro s
    match s with
    | [] => simp [chunksMap2]
    | [x] =>
      have h1 : 2 * (m + 1) = 1 + (2 * m + 1) := by omega
      simp [chunksMap2, h1, List.drop_drop]
    | x :: y :: rest =>
      have h1 : 2 * (m + 1) = 2 * m + 1 + 1 := by omega
      simp only [h1, List.drop_succ_cons, chunksMap2, ih rest]

theorem walk_down_chunk {H : Type} (f : H → Option H → H) :
    ∀ (h : Nat) (s : List H),
      (walk_down f (h + 1) s).1 = (walk_down f h (chunksMap2 f s)).1 := by
  intro h
  induction h with
  | zero =>
    intro s
    match s with
    | [] => simp [walk_down, chunksMap2]
    | [x] => simp [walk_down, chunksMap2]
    | x :: y :: rest => simp [walk_down, chunksMap2]
  | succ h ih =>
    intro s
    match s with
    | [] => simp [walk_down_nil, chunksMap2]
    | x :: xs =>
      -- the top-level structure of `walk_down (h+2)` on a non-empty source
      rcases hw : walk_down f (h + 1) (x :: xs) with ⟨r1, s1⟩
      cases r1 with
      | none =>
        have : (walk_down f (h + 1) (x :: xs)).1 = none := by rw [hw]
        simp [walk_down_fst_eq_none] at this
      | some l =>
        rcases hw2 : walk_down f (h + 1) s1 with ⟨r2, s2⟩
        -- the matching structure of `walk_down (h+1)` on the chunked layer
        have hcne : chunksMap2 f (x :: xs) ≠ [] := by
          simp [chunksMap2_eq_nil]
        rcases hw' : walk_down f h (chunksMap2 f (x :: xs)) with ⟨r1', s1'⟩
        cases r1' with
        | none =>
          have : (walk_down f h (chunksMap2 f (x :: xs))).1 = none := by rw [hw']
          rw [walk_down_fst_eq_none] at this
          exact absurd this hcne
        | some l' =>
          rcases hw2' : walk_down f h s1' with ⟨r2', s2'⟩
          have hl : l = l' := by
            have := ih (x :: xs)
            rw [hw, hw'] at this
            simpa using this
          have hs1 : s1 = (x :: xs).drop (2 ^ (h + 1)) := by
            have := walk_down_snd f (h + 1) (x :: xs); rw [hw] at this; exact this
          have hs1' : s1' = (chunksMap2 f (x :: xs)).drop (2 ^ h) := by
            have := walk_down_snd f h (chunksMap2 f (x :: xs)); rw [hw'] at this; exact this
          have hchunkdrop : chunksMap2 f s1 = s1' := by
            rw [hs1, hs1', ← chunksMap2_drop, pow_succ, mul_comm (2 ^ h) 2]
          have hr : r2 = r2' := by
            have := ih s1
            rw [hw2, hchunkdrop, hw2'] at this
            simpa using this
          have hL : walk_down f (h + 1 + 1) (x :: xs) = (some (f l r2), s2) := by
            rw [walk_down_succ f (h + 1) (x :: xs), hw]
            simp only [hw2]
          have hR : walk_down f (h + 1) (chunksMap2 f (x :: xs)) = (some (f l' r2'), s2') := by
            rw [walk_down_succ f h (chunksMap2 f (x :: xs)), hw']
            simp only [hw2']
          rw [hL, hR]
          simp [hl, hr]

theorem walk_down_head {H : Type} (f : H → Option H → H) :
    ∀ (k : Nat) (s : List H), (walk_down f k s).1 = (chunksIter f k s).head? := by
  intro k
  induction k with
  | zero =>
    intro s
    cases s <;> simp [walk_down, chunksIter]
  | succ k ih =>
    intro s
    rw [walk_down_chunk, ih, chunksIter]

theorem chunksIter_drop {H : Type} (f : H → Option H → H) :
    ∀ (k m : Nat) (s : List H),
      chunksIter f k (s.drop (2 ^ k * m)) = (chunksIter f k s).drop m := by
  intro k
  induction k with
  | zero => intro m s; simp [chunksIter]
  | succ k ih =>
    intro m s
    have h1 : 2 ^ (k + 1) * m = 2 * (2 ^ k * m) := by ring
    simp only [chunksIter, h1, chunksMap2_drop, ih]

theorem chunksIter_length_one {H : Type} (f : H → Option H → H) :
    ∀ (k : Nat) (s : List H), s ≠ [] → s.length ≤ 2 ^ k →
      (chunksIter f k s).length = 1 := by
  intro k
  induction k with
  | zero =>
    intro s hne hlen
    have : 0 < s.length := List.length_pos.mpr hne
    simp only [chunksIter]
    omega
  | succ k ih =>
    intro s hne hlen
    have hne' : chunksMap2 f s ≠ [] := by simp [chunksMap2_eq_nil, hne]
    have hlen' : (chunksMap2 f s).length ≤ 2 ^ k := by
      rw [chunksMap2_length]
      have h2 : (2 : Nat) ^ (k + 1) = 2 * 2 ^ k := by rw [pow_succ, mul_comm]
      rw [h2] at hlen
      omega
    simpa [chunksIter] using ih (chunksMap2 f s) hne' hlen'

theorem chunksIter_length_two {H : Type} (f : H → Option H → H) :
    ∀ (k : Nat) (s : List H), 2 ^ k < s.length →
      2 ≤ (chunksIter f k s).length := by
  intro k
  induction k with
  | zero => intro s hlen; simpa [chunksIter] using hlen
  | succ k ih =>
    intro s hlen
    have hlen' : 2 ^ k < (chunksMap2 f s).length := by
      rw [chunksMap2_length]
      have h2 : (2 : Nat) ^ (k + 1) = 2 * 2 ^ k := by rw [pow_succ, mul_comm]
      rw [h2] at hlen
      omega
    simpa [chunksIter] using ih (chunksMap2 f s) hlen'

/-- One reduction round of the width walk: on a layer of at least two
elements `walk_layers` recurses on the chunked layer. -/
theorem walk_layers_step {H : Type} (f : H → Option H → H) (s : List H)
    (hs : 2 ≤ s.length) : walk_layers f s = walk_layers f (chunksMap2 f s) := by
  match s with
  | [] => simp at hs
  | [x] => simp at hs
  | x :: y :: rest => rw [walk_layers]

/-- The central invariant tying the two strategies together: an ascent
step of the depth walk at height `h + 1` carrying `left` (the already
combined root of the, say, first block of leaves) with remaining source
`s` produces exactly the root that the width walk produces from the layer
`left :: chunksIter f h s` (the carried node followed by the remaining
leaves reduced `h` rounds). -/
theorem walk_up_layers {H : Type} (f : H → Option H → H) (h : Nat) (left : H)
    (s : List H) (hs : s ≠ []) :
    walk_layers f (left :: chunksIter f h s) = some (walk_up f (h + 1) left s) := by
  rcases hT : chunksIter f h s with _ | ⟨t0, T'⟩
  · rw [chunksIter_eq_nil] at hT
    exact absurd hT hs
  · have hr : (walk_down f h s).1 = some t0 := by
      rw [walk_down_head, hT]
      rfl
    have hs' : (walk_down f h s).2 = s.drop (2 ^ h) := walk_down_snd f h s
    rcases hdrop : s.drop (2 ^ h) with _ | ⟨y, t⟩
    · -- the source is exhausted below height `h`: the layer is `[left, t0]`
      have hone : (chunksIter f h s).length = 1 := by
        apply chunksIter_length_one f h s hs
        have := List.length_drop (2 ^ h) s
        rw [hdrop] at this
        simp at this
        omega
      have hT' : T' = [] := by
        rw [hT] at hone
        simpa using hone
      subst hT'
      have heq : walk_up f (h + 1) left s = f left (walk_down f h s).1 :=
        walk_up_last f (h + 1) left s (by rw [Nat.add_sub_cancel, hs', hdrop])
      rw [heq, hr]
      rw [walk_layers_step f _ (by simp)]
      simp [chunksMap2, walk_layers]
    · -- leaves remain: the depth walk ascends, the width walk reduces
      have heq : walk_up f (h + 1) left s
          = walk_up f (h + 2) (f left (walk_down f h s).1) (y :: t) :=
        walk_up_step f (h + 1) left s y t (by rw [Nat.add_sub_cancel, hs', hdrop])
      rw [heq, hr]
      have hrec := walk_up_layers f (h + 1) (f left (some t0)) (y :: t) (by simp)
      have hnext : chunksIter f (h + 1) (y :: t) = chunksMap2 f T' := by
        have hdropone : chunksIter f h (s.drop (2 ^ h * 1)) = (chunksIter f h s).drop 1 :=
          chunksIter_drop f h 1 s
        rw [mul_one, hdrop, hT] at hdropone
        rw [chunksIter_succ_out, hdropone]
        simp
      rw [hnext] at hrec
      have hstep : walk_layers f (left :: t0 :: T')
          = walk_layers f (chunksMap2 f (left :: t0 :: T')) :=
        walk_layers_step f _ (by simp)
      rw [hstep]
      simp only [chunksMap2]
      rw [hrec]
  termination_by s.length
  decreasing_by
    have h2 := List.length_drop (2 ^ h) s
    rw [hdrop] at h2
    have h4 : 1 ≤ 2 ^ h := Nat.one_le_two_pow
    simp only [List.length_cons] at h2 ⊢
    omega

/-- Cross-strategy equivalence for every source of at least two leaves:
the depth walk starting from the first leaf at height 1 coincides with
the width walk on the full leaf layer. -/
theorem depth_eq_width {H : Type} (f : H → Option H → H) (s : List H)
    (hs : 2 ≤ s.length) : DepthWalk.calculate f s = WidthWalk.calculate f s := by
  match s with
  | [] => simp at hs
  | [x] => simp at hs
  | x :: y :: rest =>
    have hx : DepthWalk.calculate f (x :: y :: rest) = some (walk_up f 1 x (y :: rest)) := rfl
    have hup := walk_up_layers f 0 x (y :: rest) (by simp)
    simp only [chunksIter] at hup
    rw [hx, ← hup]
    simp [WidthWalk.calculate]

theorem chunksMap2_concat_even {A : Type} :
    ∀ s : List (List A), s.length % 2 = 0 →
      joinAll (chunksMap2 concatHash s) = joinAll s
  | [] => by intro h; rfl
  | [x] => by intro h; simp at h
  | x :: y :: rest => by
    intro h
    have hrest : rest.length % 2 = 0 := by
      simp only [List.length_cons] at h
      omega
    simp only [chunksMap2, concatHash, joinAll]
    rw [chunksMap2_concat_even rest hrest, List.append_assoc]

theorem chunksMap2_count_replicate :
    ∀ m : Nat, chunksMap2 countHash (List.replicate (2 * m) 0) = List.replicate m 0
  | 0 => by rfl
  | m + 1 => by
    have h1 : 2 * (m + 1) = 2 * m + 1 + 1 := by omega
    rw [h1, List.replicate_succ, List.replicate_succ]
    simp only [chunksMap2, countHash, chunksMap2_count_replicate m]
    rw [List.replicate_succ]

theorem walk_layers_pow2_concat {A : Type} :
    ∀ (k : Nat) (s : List (List A)), s.length = 2 ^ k →
      walk_layers concatHash s = some (joinAll s) := by
  intro k
  induction k with
  | zero =>
    intro s h
    simp only [pow_zero] at h
    rcases List.length_eq_one.mp h with ⟨x, rfl⟩
    simp [walk_layers, joinAll]
  | succ k ih =>
    intro s h
    have hk : 1 ≤ 2 ^ k := Nat.one_le_two_pow
    have hpow : (2 : Nat) ^ (k + 1) = 2 * 2 ^ k := by rw [pow_succ, mul_comm]
    have h2 : 2 ≤ s.length := by rw [h, hpow]; omega
    have hlen : (chunksMap2 concatHash s).length = 2 ^ k := by
      rw [chunksMap2_length, h, hpow]
      omega
    have hpar : s.length % 2 = 0 := by rw [h, hpow]; omega
    rw [walk_layers_step concatHash s h2, ih (chunksMap2 concatHash s) hlen,
      chunksMap2_concat_even s hpar]

theorem walk_layers_pow2_count :
    ∀ k : Nat, walk_layers countHash (List.replicate (2 ^ k) 0) = some 0
  | 0 => by rw [pow_zero]; simp [List.replicate, walk_layers]
  | k + 1 => by
    have hk : 1 ≤ 2 ^ k := Nat.one_le_two_pow
    have hpow : (2 : Nat) ^ (k + 1) = 2 * 2 ^ k := by rw [pow_succ, mul_comm]
    have h2 : 2 ≤ (List.replicate (2 ^ (k + 1)) (0 : Nat)).length := by
      rw [List.length_replicate, hpow]; omega
    rw [walk_layers_step countHash _ h2, hpow, chunksMap2_count_replicate]
    exact walk_layers_pow2_count k

/-- The always-present-right combination step the spec's invariant (§3)
describes: consecutive elements are combined pairwise, and a trailing
element without a right sibling is combined with a copy of itself —
explicitly, never with a default value. -/
def dupStep {H : Type} (g : H → H → H) : List H → List H
  | [] => []
  | [x] => [g x x]
  | x :: y :: rest => g x y :: dupStep g rest

theorem dupStep_length {H : Type} (g : H → H → H) :
    ∀ s : List H, (dupStep g s).length = (s.length + 1) / 2
  | [] => by simp [dupStep]
  | [x] => by simp [dupStep]
  | x :: y :: rest => by
    simp only [dupStep, List.length_cons, dupStep_length g rest]
    omega

/-- Level-by-level reduction under the explicit-duplication step: the
reference semantics of the spec's duplication-rule invariant. -/
def dupRoot {H : Type} (g : H → H → H) : List H → Option H
  | [] => none
  | [x] => some x
  | x :: y :: rest => dupRoot g (dupStep g (x :: y :: rest))
  termination_by l => l.length
  decreasing_by
    simp only [dupStep_length, List.length_cons]
    omega

theorem dupRoot_step {H : Type} (g : H → H → H) (s : List H) (hs : 2 ≤ s.length) :
    dupRoot g s = dupRoot g (dupStep g s) := by
  match s with
  | [] => simp at hs
  | [x] => simp at hs
  | x :: y :: rest => rw [dupRoot]

theorem chunksMap2_eq_dupStep {H : Type} (f : H → Option H → H)
    (hf : ∀ l, f l none = f l (some l)) :
    ∀ s : List H, chunksMap2 f s = dupStep (fun x y => f x (some y)) s
  | [] => rfl
  | [x] => by simp only [chunksMap2, dupStep, hf]
  | x :: y :: rest => by
    simp only [chunksMap2, dupStep]
    rw [chunksMap2_eq_dupStep f hf rest]

theorem walk_layers_eq_dupRoot {H : Type} (f : H → Option H → H)
    (hf : ∀ l, f l none = f l (some l)) :
    ∀ s : List H, walk_layers f s = dupRoot (fun x y => f x (some y)) s
  | [] => by simp [walk_layers, dupRoot]
  | [x] => by simp [walk_layers, dupRoot]
  | x :: y :: rest => by
    rw [walk_layers_step f _ (by simp), dupRoot_step _ _ (by simp),
      ← chunksMap2_eq_dupStep f hf]
    exact walk_layers_eq_dupRoot f hf (chunksMap2 f (x :: y :: rest))
  termination_by s => s.length
  decreasing_by
    simp only [chunksMap2_length, List.length_cons]
    omega

/-- Models Rust's `buf[start..stop].copy_from_slice(src)` on a byte
buffer embedded as a `List Nat`: the copy succeeds exactly when `src` has
the length of the slice (otherwise `copy_from_slice` panics, embedded as
`none`) and replaces the elements from `start` (inclusive) to `stop`
(exclusive). -/
def setRange (buf : List Nat) (start stop : Nat) (src : List Nat) : Option (List Nat) :=
  if src.length = stop - start ∧ start ≤ stop ∧ stop ≤ buf.length then
    some (buf.take start ++ src ++ buf.drop stop)
  else none

/-- Embedding of `hash` from `src/calc/mod.rs`: a 64-byte zero buffer
receives the left digest in `input[..32]` and, in `input[32..]`, the
right digest if present or the left digest again if absent; SHA-256 is
then applied to the buffer. SHA-256 itself lives in the external `sha2`
crate, so it is abstracted as the parameter `sha`; the Rust `Hash` type
`[u8; 32]` guarantees both operands are 32 bytes, which theorems state as
explicit length hypotheses. -/
def hash (sha : List Nat → List Nat) (left : List Nat) (right : Option (List Nat)) :
    Option (List Nat) :=
  match setRange (List.replicate 64 0) 0 32 left with
  | none => none
  | some input1 =>
    match setRange input1 32 64 (match right with | some h => h | none => left) with
    | none => none
    | some input2 => some (sha input2)

theorem hash_concat (sha : List Nat → List Nat) (left r : List Nat)
    (hl : left.length = 32) (hr : r.length = 32) :
    hash sha left (some r) = some (sha (left ++ r)) := by
  have h1 : setRange (List.replicate 64 0) 0 32 left
      = some (left ++ List.replicate 32 0) := by
    rw [setRange, if_pos]
    · simp [List.drop_replicate]
    · simp [hl]
  have hlen1 : (left ++ List.replicate 32 0).length = 64 := by simp [hl]
  have h2 : setRange (left ++ List.replicate 32 0) 32 64 r = some (left ++ r) := by
    rw [setRange, if_pos]
    · rw [List.take_left' hl, List.drop_eq_nil_of_le (by rw [hlen1]), List.append_nil]
    · simp [hr, hl]
  rw [hash, h1]
  simp only [h2]

/-- The value a hexadecimal byte decodes to under `base16ct::lower`:
ASCII `'0'..'9'` and lowercase `'a'..'f'` only; uppercase letters and
every other byte are rejected. -/
def hexDigitVal (c : Nat) : Option Nat :=
  if 48 ≤ c ∧ c ≤ 57 then some (c - 48)
  else if 97 ≤ c ∧ c ≤ 102 then some (c - 87)
  else none

/-- Models `base16ct::lower::decode` (together with the preceding UTF-8
check of `src/source.rs`, since a byte sequence of 64 hex digits is
exactly a byte sequence that passes both checks): consecutive pairs of
hex digits become bytes `16 * hi + lo`; an odd-length input or any
non-hex byte fails. -/
def decodeHexLower : List Nat → Option (List Nat)
  | [] => some []
  | [_] => none
  | a :: b :: rest =>
    match hexDigitVal a, hexDigitVal b, decodeHexLower rest with
    | some ha, some hb, some ds => some ((16 * ha + hb) :: ds)
    | _, _, _ => none

theorem decodeHexLower_length :
    ∀ l d : List Nat, decodeHexLower l = some d → 2 * d.length = l.length
  | [], d => by
    intro h
    simp only [decodeHexLower, Option.some.injEq] at h
    subst h
    rfl
  | [a], d => by
    intro h
    simp [decodeHexLower] at h
  | a :: b :: rest, d => by
    intro h
    simp only [decodeHexLower] at h
    rcases ha : hexDigitVal a with _ | va <;> rw [ha] at h
    · simp at h
    · rcases hb : hexDigitVal b with _ | vb <;> rw [hb] at h
      · simp at h
      · rcases hrest : decodeHexLower rest with _ | ds <;> rw [hrest] at h
        · simp at h
        · simp only [Option.some.injEq] at h
          subst h
          have := decodeHexLower_length rest ds hrest
          simp only [List.length_cons]
          omega

/-- Embedding of `SourceReader::next` from `src/source.rs` on the
remaining file contents (a byte list): if fewer than 65 bytes remain,
`read_exact` fails and the iterator ends (`some none`); otherwise the
first 64 of the 65 read bytes are decoded (a decoding failure is the
`expect` panic, embedded as `none`) and the digest is produced together
with the input that remains after the 65-byte record. -/
def sourceNext (input : List Nat) : Option (Option (List Nat × List Nat)) :=
  if input.length < 65 then some none
  else
    match decodeHexLower (input.take 64) with
    | none => none
    | some d => some (some (d, input.drop 65))

theorem sourceNext_produced (input : List Nat) (d : List Nat) (rest : List Nat)
    (h : sourceNext input = some (some (d, rest))) :
    rest = input.drop 65 ∧ 65 ≤ input.length := by
  rw [sourceNext] at h
  split at h
  · simp at h
  · rename_i hge
    rcases hd : decodeHexLower (input.take 64) with _ | d' <;> rw [hd] at h
    · simp at h
    · simp only [Option.some.injEq, Prod.mk.injEq] at h
      exact ⟨h.2.symm, by omega⟩

/-- Iterating the embedded `SourceReader` to exhaustion: the list of all
digests it produces, or `none` if any `next` call panics. -/
def sourceItems (input : List Nat) : Option (List (List Nat)) :=
  match hnx : sourceNext input with
  | none => none
  | some none => some []
  | some (some (d, rest)) =>
    match sourceItems rest with
    | none => none
    | some ds => some (d :: ds)
  termination_by input.length
  decreasing_by
    rcases sourceNext_produced input d rest hnx with ⟨h1, h2⟩
    rw [h1, List.length_drop]
    omega

theorem sourceItems_end (input : List Nat) (h : sourceNext input = some none) :
    sourceItems input = some [] := by
  rw [sourceItems]
  split
  · rename_i h1; rw [h] at h1; simp at h1
  · rfl
  · rename_i d rest h1; rw [h] at h1; simp at h1

theorem sourceItems_fault (input : List Nat) (h : sourceNext input = none) :
    sourceItems input = none := by
  rw [sourceItems]
  split
  · rfl
  · rename_i h1; rw [h] at h1; simp at h1
  · rename_i d rest h1; rw [h] at h1; simp at h1

theorem sourceItems_cons (input : List Nat) (d : List Nat) (rest : List Nat)
    (h : sourceNext input = some (some (d, rest))) :
    sourceItems input
      = match sourceItems rest with
        | none => none
        | some ds => some (d :: ds) := by
  rw [sourceItems]
  split
  · rename_i h1; rw [h] at h1; simp at h1
  · rename_i h1; rw [h] at h1; simp at h1
  · rename_i d' rest' h1
    rw [h] at h1
    simp only [Option.some.injEq, Prod.mk.injEq] at h1
    rw [h1.1, h1.2]

/-- On an input whose full 65-byte records all carry valid lowercase-hex
prefixes, the reader ends cleanly with one 32-byte digest per record and
silently drops the trailing `input.length % 65` bytes. -/
theorem sourceItems_valid :
    ∀ input : List Nat,
      (∀ i, i < input.length / 65 →
        (decodeHexLower ((input.drop (65 * i)).take 64)).isSome) →
      ∃ ds, sourceItems input = some ds ∧ ds.length = input.length / 65 ∧
        ∀ d ∈ ds, d.length = 32 := by
  intro input hvalid
  rcases Nat.lt_or_ge input.length 65 with hlt | hge
  · have hnx : sourceNext input = some none := by rw [sourceNext, if_pos hlt]
    refine ⟨[], sourceItems_end input hnx, ?_, by simp⟩
    simp
    omega
  · have h0 : (decodeHexLower ((input.drop (65 * 0)).take 64)).isSome :=
      hvalid 0 (by omega)
    simp only [Nat.mul_zero, List.drop_zero] at h0
    rcases hd : decodeHexLower (input.take 64) with _ | d
    · rw [hd] at h0; simp at h0
    · have hnx : sourceNext input = some (some (d, input.drop 65)) := by
        rw [sourceNext, if_neg (by omega), hd]
      have hrestlen : (input.drop 65).length = input.length - 65 :=
        List.length_drop 65 input
      have hrec := sourceItems_valid (input.drop 65) ?valid
      case valid =>
        intro i hi
        have hdd : (input.drop 65).drop (65 * i) = input.drop (65 * (i + 1)) := by
          rw [List.drop_drop]
          congr 1
          ring
        rw [hdd]
        apply hvalid (i + 1)
        rw [hrestlen] at hi
        omega
      rcases hrec with ⟨ds, hds, hlen, hall⟩
      refine ⟨d :: ds, ?_, ?_, ?_⟩
      · rw [sourceItems_cons input d (input.drop 65) hnx, hds]
      · simp only [List.length_cons, hlen, hrestlen]
        omega
      · intro x hx
        rcases List.mem_cons.mp hx with rfl | hx'
        · have h2 := decodeHexLower_length (input.take 64) x hd
          rw [List.length_take] at h2
          omega
        · exact hall x hx'
  termination_by input => input.length
  decreasing_by
    rw [List.length_drop]
    omega


/-!
Claim theorems. Each claim of the specification gets one theorem below
(with a witness when it carries hypotheses, and a counterexample where
the code contradicts the claim as stated).
-/

/-- Claim C1, counterexample: on the singleton source `[a]` the two
strategies disagree under the test-suite mock combinator — `DepthWalk`
returns `combine(a, None)` (the leaf concatenated with itself) while
`WidthWalk` returns the leaf unchanged, so the claimed equivalence for
every non-empty leaf sequence fails at length one. -/
theorem claim1_counterexample :
    ¬ (DepthWalk.calculate concatHash [['a']] = WidthWalk.calculate concatHash [['a']]) := by
  have h1 : DepthWalk.calculate concatHash [['a']] = some ['a', 'a'] := by
    simp [DepthWalk.calculate, walk_up, walk_down, concatHash]
  have h2 : WidthWalk.calculate concatHash [['a']] = some ['a'] := by
    simp [WidthWalk.calculate, walk_layers]
  rw [h1, h2]
  simp

/-- Claim C1, amended: for every leaf sequence of at least two leaves,
`DepthWalk::calculate` and `WidthWalk::calculate` with the same
combinator return the identical root digest (for a singleton sequence
the two differ, see the counterexample). -/
theorem claim1_cross_strategy_equivalence {H : Type} (f : H → Option H → H)
    (s : List H) (hs : 2 ≤ s.length) :
    DepthWalk.calculate f s = WidthWalk.calculate f s :=
  depth_eq_width f s hs

/-- Witness for claim C1's theorem at the concrete three-leaf source. -/
theorem claim1_witness :
    DepthWalk.calculate concatHash [['a'], ['b'], ['c']]
      = WidthWalk.calculate concatHash [['a'], ['b'], ['c']] :=
  claim1_cross_strategy_equivalence concatHash [['a'], ['b'], ['c']] (by simp)

/-- Claim C2, counterexample: `WidthWalk::calculate` on the singleton
source `[a]` does not return `combine(a, None)`: under the mock
combinator it returns `a`, not `aa`. -/
theorem claim2_counterexample :
    ¬ (WidthWalk.calculate concatHash [['a']] = some (concatHash ['a'] none)) := by
  have h2 : WidthWalk.calculate concatHash [['a']] = some ['a'] := by
    simp [WidthWalk.calculate, walk_layers]
  rw [h2]
  simp [concatHash]

/-- Claim C2, amended: for a source of exactly one leaf `a`,
`DepthWalk::calculate` returns `combine(a, None)` — `a` duplicated and
combined with itself, root `aa` under the mock — while
`WidthWalk::calculate` returns the leaf `a` unchanged. -/
theorem claim2_single_leaf_roots {H : Type} (f : H → Option H → H) (a : H) :
    DepthWalk.calculate f [a] = some (f a none)
      ∧ WidthWalk.calculate f [a] = some a := by
  constructor
  · have h0 : (walk_down f (1 - 1) ([] : List H)).2 = [] := by
      simp [walk_down]
    have := walk_up_last f 1 a ([] : List H) h0
    simp only [DepthWalk.calculate, this]
    simp [walk_down]
  · simp [WidthWalk.calculate, walk_layers]

/-- Claim C3: calling either strategy on an empty source panics (embedded
as the `none` result) and never produces a digest: no default or zero
digest is returned. -/
theorem claim3_empty_source_fatal {H : Type} (f : H → Option H → H) :
    DepthWalk.calculate f ([] : List H) = none
      ∧ WidthWalk.calculate f ([] : List H) = none := by
  constructor
  · rfl
  · simp [WidthWalk.calculate]

/-- Claim C4: with both digests 32 bytes long, `hash(left, Some(right))`
applies SHA-256 (the abstracted `sha`) to the 64-byte concatenation
`left ++ right`; `hash(left, None)` applies it to `left ++ left`; and
consequently `hash(left, None) = hash(left, Some(left))`. -/
theorem claim4_hash_concatenates (sha : List Nat → List Nat) (left right : List Nat)
    (hl : left.length = 32) (hr : right.length = 32) :
    hash sha left (some right) = some (sha (left ++ right))
      ∧ hash sha left none = some (sha (left ++ left))
      ∧ hash sha left none = hash sha left (some left) := by
  refine ⟨hash_concat sha left right hl hr, ?_, rfl⟩
  have : hash sha left none = hash sha left (some left) := rfl
  rw [this]
  exact hash_concat sha left left hl hl

/-- Witness for claim C4's theorem at two concrete 32-byte digests. -/
theorem claim4_witness :
    hash (fun l => l) (List.replicate 32 0) (some (List.replicate 32 1))
      = some (List.replicate 32 0 ++ List.replicate 32 1) :=
  (claim4_hash_concatenates (fun l => l) (List.replicate 32 0) (List.replicate 32 1)
    (by simp) (by simp)).1

/-- Claim C5: under the mock combinator `combine(l, r) = l ++ (r if
present else l)` on single-character digests, both strategies return
`ab` on `[a, b]`, `abcd` on `[a, b, c, d]` and `abcc` on `[a, b, c]`. -/
theorem claim5_concrete_scenarios :
    DepthWalk.calculate concatHash [['a'], ['b']] = some ['a', 'b']
      ∧ WidthWalk.calculate concatHash [['a'], ['b']] = some ['a', 'b']
      ∧ DepthWalk.calculate concatHash [['a'], ['b'], ['c'], ['d']]
          = some ['a', 'b', 'c', 'd']
      ∧ WidthWalk.calculate concatHash [['a'], ['b'], ['c'], ['d']]
          = some ['a', 'b', 'c', 'd']
      ∧ DepthWalk.calculate concatHash [['a'], ['b'], ['c']] = some ['a', 'b', 'c', 'c']
      ∧ WidthWalk.calculate concatHash [['a'], ['b'], ['c']] = some ['a', 'b', 'c', 'c'] := by
  refine ⟨?_, ?_, ?_, ?_, ?_, ?_⟩
  · simp [DepthWalk.calculate, walk_up, walk_down, concatHash]
  · simp [WidthWalk.calculate, walk_layers, chunksMap2, concatHash]
  · simp [DepthWalk.calculate, walk_up, walk_down, concatHash]
  · simp [WidthWalk.calculate, walk_layers, chunksMap2, concatHash]
  · simp [DepthWalk.calculate, walk_up, walk_down, concatHash]
  · simp [WidthWalk.calculate, walk_layers, chunksMap2, concatHash]

/-- Claim C6, counterexample: the leaf count `1 = 2 ^ 0` is an exact
power of two, yet `DepthWalk` performs one combinator invocation with an
absent right operand there (the counting instrumentation returns 1, not
0), and under the concatenating mock its root `aa` is not the
concatenation of all leaves. -/
theorem claim6_counterexample :
    DepthWalk.calculate countHash [0] = some 1
      ∧ ¬ (DepthWalk.calculate concatHash [['a']] = some (joinAll [['a']])) := by
  constructor
  · simp [DepthWalk.calculate, walk_up, walk_down, countHash]
  · have h1 : DepthWalk.calculate concatHash [['a']] = some ['a', 'a'] := by
      simp [DepthWalk.calculate, walk_up, walk_down, concatHash]
    rw [h1]
    simp [joinAll]

/-- Claim C6, amended: for every leaf count `2 ^ k` with `k ≥ 1`, neither
strategy invokes the combinator with an absent right operand — stated via
the counting instrumentation `countHash`, whose root value is the number
of absent-right invocations — and, equivalently, under the concatenating
mock the root is the concatenation of all leaves in source order. (For
the power-of-two count `1` this holds for `WidthWalk` but not for
`DepthWalk`, see the counterexample.) -/
theorem claim6_pow2_no_duplication {A : Type} (k : Nat) (hk : 1 ≤ k)
    (s : List (List A)) (hs : s.length = 2 ^ k) :
    DepthWalk.calculate countHash (List.replicate (2 ^ k) 0) = some 0
      ∧ WidthWalk.calculate countHash (List.replicate (2 ^ k) 0) = some 0
      ∧ DepthWalk.calculate concatHash s = some (joinAll s)
      ∧ WidthWalk.calculate concatHash s = some (joinAll s) := by
  have hk2 : 2 ≤ 2 ^ k := by
    have h1 : (2 : Nat) ^ 1 ≤ 2 ^ k := Nat.pow_le_pow_right (by omega) hk
    simpa using h1
  have hwc : WidthWalk.calculate countHash (List.replicate (2 ^ k) 0) = some 0 := by
    rw [WidthWalk.calculate, if_neg (by simp)]
    exact walk_layers_pow2_count k
  have hws : WidthWalk.calculate concatHash s = some (joinAll s) := by
    rw [WidthWalk.calculate, if_neg (by omega)]
    exact walk_layers_pow2_concat k s hs
  refine ⟨?_, hwc, ?_, hws⟩
  · rw [depth_eq_width countHash _ (by simpa using hk2)]
    exact hwc
  · rw [depth_eq_width concatHash s (by omega)]
    exact hws

/-- Witness for claim C6's theorem at `k = 1` and the two-leaf source. -/
theorem claim6_witness :
    DepthWalk.calculate countHash (List.replicate (2 ^ 1) 0) = some 0
      ∧ WidthWalk.calculate countHash (List.replicate (2 ^ 1) 0) = some 0
      ∧ DepthWalk.calculate concatHash [['a'], ['b']] = some (joinAll [['a'], ['b']])
      ∧ WidthWalk.calculate concatHash [['a'], ['b']] = some (joinAll [['a'], ['b']]) :=
  claim6_pow2_no_duplication 1 (by decide) [['a'], ['b']] (by simp)

/-- Claim C7: an input file of `65 * k + r` bytes with `r < 65`, whose
`k` full 65-byte records all carry valid lowercase-hex 64-byte prefixes,
yields exactly `k` digests of 32 bytes each — the trailing `r` bytes are
silently dropped and no fault is raised. -/
theorem claim7_reader_record_count (input : List Nat) (k r : Nat)
    (hkr : input.length = 65 * k + r) (hr : r < 65)
    (hvalid : ∀ i, i < k → (decodeHexLower ((input.drop (65 * i)).take 64)).isSome) :
    ∃ ds, sourceItems input = some ds ∧ ds.length = k ∧ ∀ d ∈ ds, d.length = 32 := by
  have hk : input.length / 65 = k := by omega
  have := sourceItems_valid input (by rw [hk]; exact hvalid)
  rw [hk] at this
  exact this

/-- Witness for claim C7's theorem: one valid all-zero record of 65 bytes
followed by a single trailing byte yields exactly one 32-byte digest. -/
theorem claim7_witness :
    ∃ ds, sourceItems (List.replicate 64 48 ++ [10, 48]) = some ds
      ∧ ds.length = 1 ∧ ∀ d ∈ ds, d.length = 32 :=
  claim7_reader_record_count (List.replicate 64 48 ++ [10, 48]) 1 1
    (by simp) (by omega)
    (by
      intro i hi
      have h0 : i = 0 := by omega
      subst h0
      decide)

/-- Claim C8: `SourceReader::next` panics (embedded as `none`) exactly
when a full 65-byte record remains and its first 64 bytes are not a
valid lowercase-hex string: it neither returns a digest nor skips the
record in that case, and panics in no other case. -/
theorem claim8_invalid_record_fatal (input : List Nat) :
    sourceNext input = none
      ↔ 65 ≤ input.length ∧ decodeHexLower (input.take 64) = none := by
  rw [sourceNext]
  split
  · rename_i hlt
    constructor
    · intro h
      simp at h
    · rintro ⟨h1, _⟩
      omega
  · rename_i hge
    rcases hd : decodeHexLower (input.take 64) with _ | d
    · simp [hd]
      omega
    · simp [hd]

/-- Witness for claim C8's theorem: 65 uppercase `'X'` bytes (invalid as
lowercase hex) make the reader panic. -/
theorem claim8_witness : sourceNext (List.replicate 65 88) = none :=
  (claim8_invalid_record_fatal (List.replicate 65 88)).mpr ⟨by simp, by decide⟩

/-- Claim C9: in the embedding every combinator invocation is of the form
`f left right` with `left : H` always present (the Rust combinator type
`Fn(H, Option<H>) -> H` admits no absent left operand), and for every
combinator `f` that implements the duplication rule
(`f l none = f l (some l)`), on every non-empty leaf sequence both
strategies compute exactly the reference semantics `dupRoot` in which a
node lacking a right sibling is combined with a copy of itself at every
level — never with a zero or default value (for `DepthWalk` on a
singleton the duplication is the explicit root `f a (some a)`). -/
theorem claim9_duplication_invariant {H : Type} (f : H → Option H → H)
    (hf : ∀ l, f l none = f l (some l)) (s : List H) (hs : s ≠ []) :
    WidthWalk.calculate f s = dupRoot (fun x y => f x (some y)) s
      ∧ (2 ≤ s.length → DepthWalk.calculate f s = dupRoot (fun x y => f x (some y)) s)
      ∧ (∀ a : H, DepthWalk.calculate f [a] = some (f a (some a))) := by
  have hw : WidthWalk.calculate f s = dupRoot (fun x y => f x (some y)) s := by
    rw [WidthWalk.calculate, if_neg (by simp [hs])]
    exact walk_layers_eq_dupRoot f hf s
  refine ⟨hw, ?_, ?_⟩
  · intro h2
    rw [depth_eq_width f s h2]
    exact hw
  · intro a
    have h0 : (walk_down f (1 - 1) ([] : List H)).2 = [] := by
      simp [walk_down]
    have hup := walk_up_last f 1 a ([] : List H) h0
    simp only [DepthWalk.calculate, hup]
    simp [walk_down, hf]

/-- Witness for claim C9's theorem at the mock combinator (which
satisfies the duplication rule definitionally) and a three-leaf source. -/
theorem claim9_witness :
    WidthWalk.calculate concatHash [['a'], ['b'], ['c']]
        = dupRoot (fun x y => concatHash x (some y)) [['a'], ['b'], ['c']]
      ∧ (2 ≤ ([[ 'a' ], ['b'], ['c']] : List (List Char)).length →
          DepthWalk.calculate concatHash [['a'], ['b'], ['c']]
            = dupRoot (fun x y => concatHash x (some y)) [['a'], ['b'], ['c']])
      ∧ (∀ a : List Char, DepthWalk.calculate concatHash [a]
          = some (concatHash a (some a))) :=
  claim9_duplication_invariant concatHash (fun _ => rfl) [['a'], ['b'], ['c']] (by simp)

/-- Claim C10: `WidthWalk::calculate` on a source of exactly one leaf
returns that leaf unchanged for every combinator `f` — since the result
does not depend on `f` at all and the digest type is abstract, no
combinator invocation contributes to it. -/
theorem claim10_width_single_leaf {H : Type} (f : H → Option H → H) (a : H) :
    WidthWalk.calculate f [a] = some a := by
  simp [WidthWalk.calculate, walk_layers]

end MerkleRoot
